import Mathlib

/-!
Verification development for the `whitespace` utility (Rust).

The Rust source is shallowly embedded: file contents are lists of bytes
(`List Nat`), decoded text is a list of characters (`List Char`), and the
injected `FileSystem` capability is an explicit record threaded through the
per-file pipeline.  Every definition mirrors the corresponding function of
the source (`src/processor.rs`, `src/engine.rs`, `src/lib.rs`,
`src/walker.rs`); theorems about the specification's claims follow the
definitions.
-/

/-! ### Characters, whitespace and UTF-8

Rust's `str::trim_end` removes trailing characters with the Unicode
`White_Space` property; `str.len()` measures UTF-8 bytes. -/

/-- UTF-8 size in bytes of one Unicode scalar value (same for Rust `char`). -/
def charUtf8Size (c : Char) : Nat :=
  if c.toNat < 0x80 then 1
  else if c.toNat < 0x800 then 2
  else if c.toNat < 0x10000 then 3
  else 4

/-- Byte length of a character list, as Rust's `str::len`. -/
def byteLen (l : List Char) : Nat :=
  (l.map charUtf8Size).sum

/-- Rust `char::is_whitespace`: the Unicode `White_Space` property. -/
def isRustWhitespace (c : Char) : Bool :=
  c.toNat == 0x09 || c.toNat == 0x0A || c.toNat == 0x0B || c.toNat == 0x0C ||
  c.toNat == 0x0D || c.toNat == 0x20 || c.toNat == 0x85 || c.toNat == 0xA0 ||
  c.toNat == 0x1680 || (decide (0x2000 ≤ c.toNat) && decide (c.toNat ≤ 0x200A)) ||
  c.toNat == 0x2028 || c.toNat == 0x2029 || c.toNat == 0x202F ||
  c.toNat == 0x205F || c.toNat == 0x3000

/-- Is a byte a UTF-8 continuation byte (`0x80..=0xBF`)? -/
def isUtf8Cont (b : Nat) : Bool :=
  decide (0x80 ≤ b) && decide (b ≤ 0xBF)

/-- Admissible first continuation byte of a three-byte sequence
(excludes overlong forms and surrogates, as Rust's UTF-8 validation). -/
def utf8Cont3Ok (b c1 : Nat) : Bool :=
  if b == 0xE0 then decide (0xA0 ≤ c1) && decide (c1 ≤ 0xBF)
  else if b == 0xED then decide (0x80 ≤ c1) && decide (c1 ≤ 0x9F)
  else isUtf8Cont c1

/-- Admissible first continuation byte of a four-byte sequence
(excludes overlong forms and values above U+10FFFF). -/
def utf8Cont4Ok (b c1 : Nat) : Bool :=
  if b == 0xF0 then decide (0x90 ≤ c1) && decide (c1 ≤ 0xBF)
  else if b == 0xF4 then decide (0x80 ≤ c1) && decide (c1 ≤ 0x8F)
  else isUtf8Cont c1

/-- UTF-8 decoding as validated by Rust's `String::from_utf8`:
`none` exactly when the bytes are not valid UTF-8. -/
def decodeUtf8 : List Nat → Option (List Char)
  | [] => some []
  | b :: rest =>
    if b < 0x80 then
      (decodeUtf8 rest).map (fun cs => Char.ofNat b :: cs)
    else if decide (0xC2 ≤ b) && decide (b ≤ 0xDF) then
      match rest with
      | c1 :: rest1 =>
        if isUtf8Cont c1 then
          (decodeUtf8 rest1).map (fun cs =>
            Char.ofNat ((b - 0xC0) * 0x40 + (c1 - 0x80)) :: cs)
        else none
      | [] => none
    else if decide (0xE0 ≤ b) && decide (b ≤ 0xEF) then
      match rest with
      | c1 :: c2 :: rest2 =>
        if utf8Cont3Ok b c1 && isUtf8Cont c2 then
          (decodeUtf8 rest2).map (fun cs =>
            Char.ofNat ((b - 0xE0) * 0x1000 + (c1 - 0x80) * 0x40 + (c2 - 0x80)) :: cs)
        else none
      | _ => none
    else if decide (0xF0 ≤ b) && decide (b ≤ 0xF4) then
      match rest with
      | c1 :: c2 :: c3 :: rest3 =>
        if utf8Cont4Ok b c1 && isUtf8Cont c2 && isUtf8Cont c3 then
          (decodeUtf8 rest3).map (fun cs =>
            Char.ofNat ((b - 0xF0) * 0x40000 + (c1 - 0x80) * 0x1000 +
              (c2 - 0x80) * 0x40 + (c3 - 0x80)) :: cs)
        else none
      | _ => none
    else none

/-- UTF-8 encoding of one character (Rust `char::encode_utf8`). -/
def encodeUtf8Char (c : Char) : List Nat :=
  let n := c.toNat
  if n < 0x80 then [n]
  else if n < 0x800 then [0xC0 + n / 0x40, 0x80 + n % 0x40]
  else if n < 0x10000 then
    [0xE0 + n / 0x1000, 0x80 + (n / 0x40) % 0x40, 0x80 + n % 0x40]
  else
    [0xF0 + n / 0x40000, 0x80 + (n / 0x1000) % 0x40,
     0x80 + (n / 0x40) % 0x40, 0x80 + n % 0x40]

/-- UTF-8 encoding of a character list (Rust `str::as_bytes`). -/
def encodeUtf8 (l : List Char) : List Nat :=
  (l.map encodeUtf8Char).flatten

/-! ### Rust `str::lines`

`lines()` splits at `\n`; a line that ended in `\r\n` loses that single
trailing `\r`; a final segment without a terminator is yielded as-is and
keeps any trailing `\r`; the empty string yields no lines. -/

/-- Strip one trailing carriage return (Rust's `strip_suffix('\r')`
applied after removing the `\n` of a terminated line). -/
def stripCr (l : List Char) : List Char :=
  if l.getLast? == some '\r' then l.dropLast else l

/-- Worker for `rustLines`: `acc` holds the current line reversed. -/
def linesGo : List Char → List Char → List (List Char)
  | [], acc => if acc.isEmpty then [] else [acc.reverse]
  | c :: rest, acc =>
    if c == '\n' then stripCr acc.reverse :: linesGo rest []
    else linesGo rest (c :: acc)

/-- Rust `str::lines` on a character list. -/
def rustLines (l : List Char) : List (List Char) :=
  linesGo l []

/-! ### The transform (`WhitespaceProcessor::process_content`) -/

/-- Rust `str::trim_end`: remove trailing whitespace characters. -/
def trimEnd (l : List Char) : List Char :=
  (l.reverse.dropWhile isRustWhitespace).reverse

/-- Did `trim_end` strictly shorten the line (in bytes)?  This is the
modification test of `process_content`. -/
def lineChanged (l : List Char) : Bool :=
  decide (byteLen (trimEnd l) < byteLen l)

/-- The per-line loop of `process_content`: trims each line, records the
1-based numbers (offset by `n`) of lines that shrank, and accumulates the
bytes saved. -/
def processLoop : List (List Char) → Nat → List (List Char) × List Nat × Nat
  | [], _ => ([], [], 0)
  | l :: ls, n =>
    let t := trimEnd l
    let rec_ := processLoop ls (n + 1)
    if lineChanged l then
      (t :: rec_.1, (n + 1) :: rec_.2.1, (byteLen l - byteLen t) + rec_.2.2)
    else
      (t :: rec_.1, rec_.2.1, rec_.2.2)

/-- Rust `slice::join("\n")`: concatenate with a `\n` between adjacent
lines. -/
def joinNl : List (List Char) → List Char
  | [] => []
  | [l] => l
  | l :: ls => l ++ '\n' :: joinNl ls

/-- `WhitespaceProcessor::process_content`: split into lines, trim each
line's trailing whitespace, rejoin with `\n`, re-adding a final newline
exactly when the input ended with one.  Returns
`(cleaned text, modified 1-based line numbers, bytes saved)`. -/
def process_content (content : List Char) : List Char × List Nat × Nat :=
  let r := processLoop (rustLines content) 0
  let joined := joinNl r.1
  let out := if content.getLast? == some '\n' then joined ++ ['\n'] else joined
  (out, r.2.1, r.2.2)

/-! ### Configuration (`src/config.rs`)

Only the fields the core components read; `threads` is scheduling-only and
omitted. -/

/-- `config::BinaryDetection`. -/
structure BinaryDetection where
  check_null_bytes : Bool
  sample_size : Nat
deriving Repr, DecidableEq

/-- `config::ProcessingSettings` (the `threads` field is irrelevant to the
claims and omitted). -/
structure ProcessingSettings where
  max_file_size : Nat
deriving Repr, DecidableEq

/-- `config::Config`, restricted to the fields the core reads. -/
structure Config where
  file_extensions : List String
  exclude_paths : List String
  exclude_files : List String
  exclude_binary_extensions : List String
  binary_detection : BinaryDetection
  processing : ProcessingSettings
deriving Repr, DecidableEq

/-! ### The filesystem capability (`src/ports/fs.rs`)

The injected `FileSystem` trait is modelled as a finite map from path
strings to byte contents, together with the set of paths on which `write`
fails (a `RealFs` write can fail; `MemFs` corresponds to
`failWrites = []`). -/

/-- The injected filesystem capability: stored files plus the paths whose
`write` operation fails with an I/O error. -/
structure Fs where
  files : List (String × List Nat)
  failWrites : List String
deriving Repr, DecidableEq

/-- `FileSystem::read`: the stored bytes, or an I/O error. -/
def fsRead (fs : Fs) (p : String) : Except String (List Nat) :=
  match fs.files.lookup p with
  | some c => Except.ok c
  | none => Except.error ("File not found: " ++ p)

/-- Replace the binding of `p` in an association list (insert if absent). -/
def updateAssoc (l : List (String × List Nat)) (p : String) (c : List Nat) :
    List (String × List Nat) :=
  match l with
  | [] => [(p, c)]
  | (q, d) :: rest =>
    if q == p then (p, c) :: rest else (q, d) :: updateAssoc rest p c

/-- `FileSystem::write`: fails on the failing paths, otherwise stores. -/
def fsWrite (fs : Fs) (p : String) (c : List Nat) : Except String Fs :=
  if fs.failWrites.contains p then Except.error ("write denied: " ++ p)
  else Except.ok { fs with files := updateAssoc fs.files p c }

/-! ### The per-file pipeline (`WhitespaceProcessor::process_file`) -/

/-- `processor::ProcessingResult`. -/
structure ProcessingResult where
  lines_modified : List Nat
  had_changes : Bool
  error : Option String
deriving Repr, DecidableEq

/-- Outcome of one `process_file` call: the structured result, the write
invocations it performed (path and bytes), and the filesystem afterwards. -/
structure FileOutcome where
  result : ProcessingResult
  writes : List (String × List Nat)
  fs : Fs
deriving Repr, DecidableEq

/-- `WhitespaceProcessor::is_binary_content`: null byte in the first
`sample_size` bytes, if null-byte checking is enabled. -/
def is_binary_content (cfg : Config) (content : List Nat) : Bool :=
  if !cfg.binary_detection.check_null_bytes then false
  else (content.take cfg.binary_detection.sample_size).contains 0

/-- `WhitespaceProcessor::process_file`.  Mirrors the Rust
`Result<ProcessingResult>`: every branch returns `Except.ok`, so the
`Except.error` case is provably unreachable.  Read failure, binary
detection, and invalid UTF-8 short-circuit with an error result; otherwise
the transform runs, and the cleaned text is written back only when
`!dry_run` and at least one line changed, a write failure being reported
in the result while keeping the computed modified lines. -/
def process_file (fs : Fs) (cfg : Config) (path : String) (dry_run : Bool) :
    Except String FileOutcome :=
  match fsRead fs path with
  | Except.error e =>
    Except.ok ⟨⟨[], false, some ("Failed to read file: " ++ e)⟩, [], fs⟩
  | Except.ok content =>
    if is_binary_content cfg content then
      Except.ok ⟨⟨[], false, some "Binary file detected"⟩, [], fs⟩
    else
      match decodeUtf8 content with
      | none =>
        Except.ok ⟨⟨[], false, some "Invalid UTF-8 encoding"⟩, [], fs⟩
      | some chars =>
        let pc := process_content chars
        let had_changes := !pc.2.1.isEmpty
        if !dry_run && had_changes then
          match fsWrite fs path (encodeUtf8 pc.1) with
          | Except.error e =>
            Except.ok ⟨⟨pc.2.1, had_changes, some ("Failed to write file: " ++ e)⟩,
              [(path, encodeUtf8 pc.1)], fs⟩
          | Except.ok fs' =>
            Except.ok ⟨⟨pc.2.1, had_changes, none⟩, [(path, encodeUtf8 pc.1)], fs'⟩
        else
          Except.ok ⟨⟨pc.2.1, had_changes, none⟩, [], fs⟩

/-! ### The orchestrator (`src/engine.rs`)

`rayon`'s `par_iter().map().collect()` preserves input order and produces
one result per path; the embedding runs the same per-path map
sequentially, threading the filesystem. -/

/-- `engine::ProcessingSummary` (the informational `duration` field is
omitted). -/
structure ProcessingSummary where
  files_processed : Nat
  files_modified : Nat
  files_with_errors : Nat
deriving Repr, DecidableEq

/-- Outcome of a whole run: per-file results in input order, all write
invocations, and the final filesystem. -/
structure RunOutcome where
  file_results : List (String × ProcessingResult)
  writes : List (String × List Nat)
  fs : Fs
deriving Repr, DecidableEq

/-- `ParallelEngine::process_files_with_results`: maps `process_file` over
the paths; an `Err` from `process_file` (unreachable) would be converted
into a structured `"Processing failed"` result by the fault fallback. -/
def process_files_with_results (fs : Fs) (cfg : Config) :
    List String → Bool → RunOutcome
  | [], _ => ⟨[], [], fs⟩
  | p :: ps, dry_run =>
    match process_file fs cfg p dry_run with
    | Except.ok o =>
      let rest := process_files_with_results o.fs cfg ps dry_run
      ⟨(p, o.result) :: rest.file_results, o.writes ++ rest.writes, rest.fs⟩
    | Except.error e =>
      let rest := process_files_with_results fs cfg ps dry_run
      ⟨(p, ⟨[], false, some ("Processing failed: " ++ e)⟩) :: rest.file_results,
        rest.writes, rest.fs⟩

/-- `ParallelEngine::aggregate_results`: one pass over the results,
counting every result, the errored ones, and the changed-without-error
ones. -/
def aggregate_results : List ProcessingResult → ProcessingSummary
  | [] => ⟨0, 0, 0⟩
  | r :: rs =>
    let s := aggregate_results rs
    if r.error.isSome then
      ⟨s.files_processed + 1, s.files_modified, s.files_with_errors + 1⟩
    else if r.had_changes then
      ⟨s.files_processed + 1, s.files_modified + 1, s.files_with_errors⟩
    else
      ⟨s.files_processed + 1, s.files_modified, s.files_with_errors⟩

/-! ### Report formatting (`format_line_numbers`, identical in
`src/lib.rs` and `src/main.rs`) -/

/-- One compressed range: bare number when the run is a single line,
`start-end` otherwise. -/
def renderRange (s e : Nat) : String :=
  if s == e then toString s else toString s ++ "-" ++ toString e

/-- The loop of `format_line_numbers`: `s`/`e` are the current run's
bounds, `acc` the ranges already emitted. -/
def flnLoop : List Nat → Nat → Nat → List String → List String
  | [], s, e, acc => acc ++ [renderRange s e]
  | x :: xs, s, e, acc =>
    if x == e + 1 then flnLoop xs s x acc
    else flnLoop xs x x (acc ++ [renderRange s e])

/-- `format_line_numbers`: empty list renders as the empty string,
otherwise the compressed ranges are comma-joined inside parentheses,
preceded by a single space. -/
def format_line_numbers : List Nat → String
  | [] => ""
  | x :: xs => " (" ++ String.intercalate "," (flnLoop xs x x []) ++ ")"

/-! ### Glob patterns (the `glob` crate, as used by `src/walker.rs`)

`glob::Pattern::new` compiles a pattern; a compilation failure is treated
by the walker as a non-match.  `Pattern::matches` runs with the default
`MatchOptions`, under which `*` and `?` also match `/`; `**` must form a
whole path component and matches any sequence including separators. -/

/-- One element of a `[...]` character class. -/
inductive ClassSpec where
  | single (c : Char)
  | range (a b : Char)
deriving Repr, DecidableEq

/-- A compiled glob token. -/
inductive GlobToken where
  | lit (c : Char)
  | anyChar
  | anySeq
  | anyRecSeq
  | anyWithin (s : List ClassSpec)
  | anyExcept (s : List ClassSpec)
deriving Repr, DecidableEq

/-- Parse the chars inside a `[...]` class into specs (`a-z` ranges and
singletons). -/
def parseSpecs : List Char → List ClassSpec
  | a :: '-' :: b :: rest => ClassSpec.range a b :: parseSpecs rest
  | a :: rest => ClassSpec.single a :: parseSpecs rest
  | [] => []

/-- Split a class body: first content char (may be `]`), then up to the
closing `]`; `none` when the class never closes. -/
def splitClass : List Char → Option (List Char × List Char)
  | [] => none
  | c :: rest =>
    match rest.dropWhile (fun x => x != ']') with
    | _ :: rest' => some (c :: rest.takeWhile (fun x => x != ']'), rest')
    | [] => none

/-- `dropWhile` never lengthens a list. -/
theorem dropWhile_length_le (p : α → Bool) (l : List α) :
    (l.dropWhile p).length ≤ l.length := by
  induction l with
  | nil => simp [List.dropWhile]
  | cons a l ih =>
    by_cases h : p a = true
    · simp [List.dropWhile, h]; omega
    · simp [List.dropWhile, h]

/-- A successfully split class consumes at least two characters. -/
theorem splitClass_some_length {l content rest' : List Char}
    (h : splitClass l = some (content, rest')) : rest'.length + 2 ≤ l.length := by
  match l with
  | [] => simp [splitClass] at h
  | c :: rest =>
    have hd := dropWhile_length_le (fun x => x != ']') rest
    simp only [splitClass] at h
    cases hm : rest.dropWhile (fun x => x != ']') with
    | nil => rw [hm] at h; simp at h
    | cons b bs =>
      rw [hm] at h hd
      simp only [Option.some.injEq, Prod.mk.injEq] at h
      obtain ⟨h1, h2⟩ := h
      subst h2
      simp only [List.length_cons] at hd ⊢
      omega

/-- `glob::Pattern::new`.  `prevSep` records whether the previous pattern
position was the start or a `/` (needed for the `**`-is-a-component
rule); a run of exactly two stars must fill a whole path component,
longer runs are compilation errors.  The `fuel` parameter only drives
structural recursion (each step consumes at least one pattern character,
so `fuel = length + 1` in the wrapper below never runs out). -/
def globCompileFuel : Nat → Bool → List Char → Option (List GlobToken)
  | 0, _, _ => none
  | _ + 1, _, [] => some []
  | fuel + 1, _, '?' :: rest =>
    (globCompileFuel fuel false rest).map (GlobToken.anyChar :: ·)
  | fuel + 1, prevSep, '*' :: '*' :: rest2 =>
    if !prevSep then none
    else
      match rest2 with
      | '*' :: _ => none
      | [] => some [GlobToken.anyRecSeq]
      | '/' :: rest3 => (globCompileFuel fuel true rest3).map (GlobToken.anyRecSeq :: ·)
      | _ => none
  | fuel + 1, _, '*' :: rest =>
    (globCompileFuel fuel false rest).map (GlobToken.anySeq :: ·)
  | fuel + 1, _, '[' :: '!' :: rest =>
    match splitClass rest with
    | some (content, rest') =>
      (globCompileFuel fuel false rest').map (GlobToken.anyExcept (parseSpecs content) :: ·)
    | none => none
  | fuel + 1, _, '[' :: rest =>
    match splitClass rest with
    | some (content, rest') =>
      (globCompileFuel fuel false rest').map (GlobToken.anyWithin (parseSpecs content) :: ·)
    | none => none
  | fuel + 1, _, c :: rest =>
    (globCompileFuel fuel (c == '/') rest).map (GlobToken.lit c :: ·)

/-- Compile a glob pattern string. -/
def globCompile (pat : String) : Option (List GlobToken) :=
  globCompileFuel (pat.toList.length + 1) true pat.toList

/-- Does a character satisfy one class spec? -/
def inSpec (c : Char) : ClassSpec → Bool
  | ClassSpec.single a => c == a
  | ClassSpec.range a b => decide (a.toNat ≤ c.toNat) && decide (c.toNat ≤ b.toNat)

/-- Does a character lie in a class? -/
def inClass (s : List ClassSpec) (c : Char) : Bool :=
  s.any (inSpec c)

/-- `glob::Pattern::matches_from` under the default `MatchOptions`:
`anySeq` (`*`) consumes any characters including `/`; `anyRecSeq` (`**`)
may hand over to the rest either immediately or just after consuming a
`/`.  Each step consumes fuel, a token, or an input character, so the
recursion is structural in `fuel`; the wrapper supplies fuel exceeding the
longest possible chain, `(tokens + 1) * (input + 1)`. -/
def matchTokensFuel : Nat → List GlobToken → List Char → Bool
  | 0, _, _ => false
  | _ + 1, [], [] => true
  | _ + 1, [], _ :: _ => false
  | _ + 1, GlobToken.lit _ :: _, [] => false
  | fuel + 1, GlobToken.lit c :: ts, x :: rest => c == x && matchTokensFuel fuel ts rest
  | _ + 1, GlobToken.anyChar :: _, [] => false
  | fuel + 1, GlobToken.anyChar :: ts, _ :: rest => matchTokensFuel fuel ts rest
  | _ + 1, GlobToken.anyWithin _ :: _, [] => false
  | fuel + 1, GlobToken.anyWithin s :: ts, x :: rest =>
    inClass s x && matchTokensFuel fuel ts rest
  | _ + 1, GlobToken.anyExcept _ :: _, [] => false
  | fuel + 1, GlobToken.anyExcept s :: ts, x :: rest =>
    !inClass s x && matchTokensFuel fuel ts rest
  | fuel + 1, GlobToken.anySeq :: ts, [] => matchTokensFuel fuel ts []
  | fuel + 1, GlobToken.anySeq :: ts, x :: rest =>
    matchTokensFuel fuel ts (x :: rest) ||
      matchTokensFuel fuel (GlobToken.anySeq :: ts) rest
  | fuel + 1, GlobToken.anyRecSeq :: ts, [] => matchTokensFuel fuel ts []
  | fuel + 1, GlobToken.anyRecSeq :: ts, x :: rest =>
    matchTokensFuel fuel ts (x :: rest) || (x == '/' && matchTokensFuel fuel ts rest) ||
      matchTokensFuel fuel (GlobToken.anyRecSeq :: ts) rest

/-- Token matching with always-sufficient fuel. -/
def matchTokens (ts : List GlobToken) (file : List Char) : Bool :=
  matchTokensFuel ((ts.length + 1) * (file.length + 1)) ts file

/-- The walker's pattern test: compile, then match; a pattern that fails
to compile never matches (`if let Ok(glob_pattern) = ...`). -/
def globMatches (pat : String) (s : String) : Bool :=
  match globCompile pat with
  | some ts => matchTokens ts s.toList
  | none => false

/-! ### The discovery walker (`src/walker.rs`)

A path is a list of components; its string form joins them with `/`.
`walkdir`'s traversal is external: the walker model receives the entries
the traversal yields (path plus the directory/symlink flags) and a
metadata table standing for `FileSystem::metadata`. -/

/-- String form of a component path (`Path::to_string_lossy`). -/
def pathStr (p : List String) : String :=
  String.intercalate "/" p

/-- `Path::ancestors`: the path, then each parent, down to the empty
path. -/
def ancestorsOf (p : List String) : List (List String) :=
  (List.range (p.length + 1)).map (fun k => p.take (p.length - k))

/-- One entry yielded by the `walkdir` traversal. -/
structure WalkEntry where
  path : List String
  isDir : Bool
  isSymlink : Bool
deriving Repr, DecidableEq

/-- Rust `str::ends_with` on strings (computed on the character lists,
which coincides with the byte-wise test for an ASCII suffix). -/
def strEndsWith (s suf : String) : Bool :=
  List.isSuffixOf suf.toList s.toList

/-- Rust's `&pattern[..pattern.len() - n]` for an ASCII tail of `n`
bytes. -/
def strDropRight (s : String) (n : Nat) : String :=
  ⟨s.toList.take (s.toList.length - n)⟩

/-- `FileWalker::is_excluded_path`: a pattern excludes when it matches the
full path, or any ancestor, or — for a pattern of the form `name/**` —
when its `name` part matches the bare file name of any ancestor. -/
def is_excluded_path (cfg : Config) (p : List String) : Bool :=
  cfg.exclude_paths.any (fun pat =>
    globMatches pat (pathStr p) ||
    (ancestorsOf p).any (fun anc =>
      globMatches pat (pathStr anc) ||
      (strEndsWith pat "/**" &&
        match anc.getLast? with
        | some name => globMatches (strDropRight pat 3) name
        | none => false)))

/-- `FileWalker::is_excluded_file`: glob match on the base name only. -/
def is_excluded_file (cfg : Config) (p : List String) : Bool :=
  match p.getLast? with
  | some name => cfg.exclude_files.any (fun pat => globMatches pat name)
  | none => false

/-- `FileWalker::has_binary_extension`: glob match on the base name. -/
def has_binary_extension (cfg : Config) (p : List String) : Bool :=
  match p.getLast? with
  | some name => cfg.exclude_binary_extensions.any (fun pat => globMatches pat name)
  | none => false

/-- `FileWalker::should_process_file`: short-circuit through the
exclusion checks, then the size check (`metadata` error or
`len > max_file_size` both reject). -/
def should_process_file (cfg : Config) (meta : List (List String × Nat))
    (p : List String) : Bool :=
  if is_excluded_path cfg p then false
  else if is_excluded_file cfg p then false
  else if has_binary_extension cfg p then false
  else
    match meta.lookup p with
    | some len => !(decide (len > cfg.processing.max_file_size))
    | none => false

/-- `FileWalker::collect_files`: keep the non-directory, non-symlink
entries that pass `should_process_file`, in traversal order. -/
def collect_files (cfg : Config) (meta : List (List String × Nat))
    (entries : List WalkEntry) : List (List String) :=
  (entries.filter (fun e =>
    !e.isDir && !e.isSymlink && should_process_file cfg meta e.path)).map
    (fun e => e.path)

/-! ### Specification-side definitions

Used to compare the code's behaviour with the spec's words. -/

/-- Modelled from the spec: chop a line-number list into maximal runs of
consecutive successors, each run given by its first and last number. -/
def runPairs : List Nat → List (Nat × Nat)
  | [] => []
  | x :: xs =>
    match runPairs xs with
    | (a, b) :: rest => if a == x + 1 then (x, b) :: rest else (x, x) :: (a, b) :: rest
    | [] => [(x, x)]

/-- Modelled from the spec: maximal consecutive runs rendered `start-end`,
isolated numbers bare, comma-joined inside parentheses (after a leading
space, which is what the code emits); the empty list renders empty. -/
def renderSpec (l : List Nat) : String :=
  match l with
  | [] => ""
  | _ =>
    " (" ++ String.intercalate "," ((runPairs l).map (fun r => renderRange r.1 r.2)) ++ ")"

/-- Would `process_file` find changes in this file: it is readable,
non-binary, valid UTF-8, and the transform shrinks at least one line. -/
def wouldChange (fs : Fs) (cfg : Config) (p : String) : Bool :=
  match fsRead fs p with
  | Except.error _ => false
  | Except.ok content =>
    if is_binary_content cfg content then false
    else
      match decodeUtf8 content with
      | none => false
      | some chars => !(process_content chars).2.1.isEmpty

/-! ### Lemmas on `format_line_numbers` -/

/-- Extend the run decomposition of a tail by a current run `s..e`. -/
def mergePairs (s e : Nat) : List (Nat × Nat) → List (Nat × Nat)
  | (a, b) :: rest => if a == e + 1 then (s, b) :: rest else (s, e) :: (a, b) :: rest
  | [] => [(s, e)]

theorem runPairs_cons (x : Nat) (xs : List Nat) :
    runPairs (x :: xs) = mergePairs x x (runPairs xs) := by
  simp only [runPairs]
  match runPairs xs with
  | [] => rfl
  | (a, b) :: rest => rfl

theorem runPairs_cons_head (x : Nat) (xs : List Nat) :
    ∃ b rest, runPairs (x :: xs) = (x, b) :: rest := by
  rw [runPairs_cons]
  match runPairs xs with
  | [] => exact ⟨x, [], rfl⟩
  | (a, b) :: rest =>
    simp only [mergePairs]
    by_cases h : a == x + 1
    · simp [h]
    · simp [h]

theorem mergePairs_merge (s e x : Nat) (hx : x = e + 1) (rs : List (Nat × Nat)) :
    mergePairs s e (mergePairs x x rs) = mergePairs s x rs := by
  subst hx
  match rs with
  | [] => simp [mergePairs]
  | (a, b) :: rest =>
    by_cases h : a = e + 1 + 1
    · simp [mergePairs, h]
    · simp [mergePairs, h]

theorem flnLoop_eq (xs : List Nat) : ∀ s e acc,
    flnLoop xs s e acc =
      acc ++ (mergePairs s e (runPairs xs)).map (fun r => renderRange r.1 r.2) := by
  induction xs with
  | nil => intro s e acc; simp [flnLoop, runPairs, mergePairs]
  | cons x xs ih =>
    intro s e acc
    simp only [flnLoop]
    by_cases h : (x == e + 1) = true
    · rw [if_pos h, ih s x acc, runPairs_cons,
        mergePairs_merge s e x (by simpa using h)]
    · have hne : (x == e + 1) = false := by simpa using h
      rw [if_neg h, ih x x (acc ++ [renderRange s e]), ← runPairs_cons]
      obtain ⟨b, rest, hhead⟩ := runPairs_cons_head x xs
      rw [hhead]
      simp [mergePairs, hne]

theorem format_line_numbers_eq_renderSpec (l : List Nat) :
    format_line_numbers l = renderSpec l := by
  match l with
  | [] => rfl
  | x :: xs =>
    show " (" ++ String.intercalate "," (flnLoop xs x x []) ++ ")" =
      " (" ++ String.intercalate ","
        ((runPairs (x :: xs)).map (fun r => renderRange r.1 r.2)) ++ ")"
    rw [flnLoop_eq, ← runPairs_cons, List.nil_append]

/-! ### Branch lemmas for `process_file` -/

theorem pf_read_err {fs : Fs} {cfg : Config} {path : String} {dry_run : Bool}
    {e : String} (h : fsRead fs path = Except.error e) :
    process_file fs cfg path dry_run =
      Except.ok ⟨⟨[], false, some ("Failed to read file: " ++ e)⟩, [], fs⟩ := by
  unfold process_file
  rw [h]

theorem pf_binary {fs : Fs} {cfg : Config} {path : String} {dry_run : Bool}
    {content : List Nat} (h : fsRead fs path = Except.ok content)
    (hb : is_binary_content cfg content = true) :
    process_file fs cfg path dry_run =
      Except.ok ⟨⟨[], false, some "Binary file detected"⟩, [], fs⟩ := by
  unfold process_file
  rw [h]
  simp [hb]

theorem pf_invalid {fs : Fs} {cfg : Config} {path : String} {dry_run : Bool}
    {content : List Nat} (h : fsRead fs path = Except.ok content)
    (hb : is_binary_content cfg content = false) (hd : decodeUtf8 content = none) :
    process_file fs cfg path dry_run =
      Except.ok ⟨⟨[], false, some "Invalid UTF-8 encoding"⟩, [], fs⟩ := by
  unfold process_file
  rw [h]
  simp [hb, hd]

theorem pf_nowrite {fs : Fs} {cfg : Config} {path : String} {dry_run : Bool}
    {content : List Nat} {chars : List Char}
    (h : fsRead fs path = Except.ok content)
    (hb : is_binary_content cfg content = false)
    (hd : decodeUtf8 content = some chars)
    (hw : dry_run = true ∨ (process_content chars).2.1 = []) :
    process_file fs cfg path dry_run =
      Except.ok ⟨⟨(process_content chars).2.1, !(process_content chars).2.1.isEmpty, none⟩,
        [], fs⟩ := by
  unfold process_file
  rw [h]
  rcases hw with hw | hw
  · simp [hb, hd, hw]
  · simp [hb, hd, hw]

theorem pf_write_ok {fs fs' : Fs} {cfg : Config} {path : String}
    {content : List Nat} {chars : List Char}
    (h : fsRead fs path = Except.ok content)
    (hb : is_binary_content cfg content = false)
    (hd : decodeUtf8 content = some chars)
    (hch : (process_content chars).2.1 ≠ [])
    (hw : fsWrite fs path (encodeUtf8 (process_content chars).1) = Except.ok fs') :
    process_file fs cfg path false =
      Except.ok ⟨⟨(process_content chars).2.1, true, none⟩,
        [(path, encodeUtf8 (process_content chars).1)], fs'⟩ := by
  unfold process_file
  rw [h]
  simp [hb, hd, hch, hw, List.isEmpty_iff]

theorem pf_write_err {fs : Fs} {cfg : Config} {path : String}
    {content : List Nat} {chars : List Char} {e : String}
    (h : fsRead fs path = Except.ok content)
    (hb : is_binary_content cfg content = false)
    (hd : decodeUtf8 content = some chars)
    (hch : (process_content chars).2.1 ≠ [])
    (hw : fsWrite fs path (encodeUtf8 (process_content chars).1) = Except.error e) :
    process_file fs cfg path false =
      Except.ok ⟨⟨(process_content chars).2.1, true, some ("Failed to write file: " ++ e)⟩,
        [(path, encodeUtf8 (process_content chars).1)], fs⟩ := by
  unfold process_file
  rw [h]
  simp [hb, hd, hch, hw, List.isEmpty_iff]

theorem process_file_isOk (fs : Fs) (cfg : Config) (path : String) (dry_run : Bool) :
    ∃ o, process_file fs cfg path dry_run = Except.ok o := by
  rcases hr : fsRead fs path with e | content
  · exact ⟨_, pf_read_err hr⟩
  · by_cases hb : is_binary_content cfg content = true
    · exact ⟨_, pf_binary hr hb⟩
    · replace hb : is_binary_content cfg content = false := by simpa using hb
      rcases hd : decodeUtf8 content with _ | chars
      · exact ⟨_, pf_invalid hr hb hd⟩
      · by_cases hch : (process_content chars).2.1 = []
        · exact ⟨_, pf_nowrite hr hb hd (Or.inr hch)⟩
        · by_cases hdry : dry_run = true
          · exact ⟨_, pf_nowrite hr hb hd (Or.inl hdry)⟩
          · replace hdry : dry_run = false := by simpa using hdry
            subst hdry
            rcases hw : fsWrite fs path (encodeUtf8 (process_content chars).1) with e | fs'
            · exact ⟨_, pf_write_err hr hb hd hch hw⟩
            · exact ⟨_, pf_write_ok hr hb hd hch hw⟩

/-- Shape of an errored `process_file` result: every error branch except a
write failure reports no changes; a write failure reports the computed
changes. -/
theorem pf_error_shape {fs : Fs} {cfg : Config} {path : String} {dry_run : Bool}
    {o : FileOutcome} (hok : process_file fs cfg path dry_run = Except.ok o)
    (herr : o.result.error.isSome = true) :
    o.result.had_changes = false ∨
      (o.result.had_changes = true ∧ o.result.lines_modified ≠ [] ∧ dry_run = false ∧
        ∃ e, o.result.error = some ("Failed to write file: " ++ e)) := by
  rcases hr : fsRead fs path with e | content
  · rw [pf_read_err hr] at hok; cases hok; left; rfl
  · by_cases hb : is_binary_content cfg content = true
    · rw [pf_binary hr hb] at hok; cases hok; left; rfl
    · replace hb : is_binary_content cfg content = false := by simpa using hb
      rcases hd : decodeUtf8 content with _ | chars
      · rw [pf_invalid hr hb hd] at hok; cases hok; left; rfl
      · by_cases hch : (process_content chars).2.1 = []
        · rw [pf_nowrite hr hb hd (Or.inr hch)] at hok; cases hok; simp at herr
        · by_cases hdry : dry_run = true
          · rw [pf_nowrite hr hb hd (Or.inl hdry)] at hok; cases hok; simp at herr
          · replace hdry : dry_run = false := by simpa using hdry
            subst hdry
            rcases hw : fsWrite fs path (encodeUtf8 (process_content chars).1) with e | fs'
            · rw [pf_write_err hr hb hd hch hw] at hok
              cases hok
              exact Or.inr ⟨rfl, hch, rfl, e, rfl⟩
            · rw [pf_write_ok hr hb hd hch hw] at hok; cases hok; simp at herr

/-- A default-like configuration with null-byte binary sniffing over an
8 KiB sample, a 100 MiB size cap, and no exclusions. -/
def cfgPlain : Config := ⟨[], [], [], [], ⟨true, 8192⟩, ⟨104857600⟩⟩

/-- C1: the claim says CRLF-terminated lines stay CRLF-terminated.  The
code splits with `str::lines` (which consumes the `\r` of `\r\n`) and
rejoins with bare `\n`, so the CRLF input line comes back LF-terminated —
contradicting the code's own comment "Reconstruct content preserving
original line endings".  Evaluation at the failing input `"x\r\n"`: the
output is `"x\n"` (and the change is not even recorded as a modified
line). -/
theorem C1_crlf_becomes_lf :
    process_content ['x', '\r', '\n'] = (['x', '\n'], [], 0) ∧
      (['x', '\n'] : List Char) ≠ ['x', '\r', '\n'] := by
  constructor
  · rfl
  · decide

/-- C2 counterexample: on a file with trailing whitespace whose write
fails, `process_file` returns a result with a non-null `error` and
`had_changes = true`, refuting "an errored result always has
`hadChanges = false`". -/
theorem C2_counterexample_write_failure :
    (process_file ⟨[("f", [97, 32, 10])], ["f"]⟩ cfgPlain "f" false).map
      (fun o => (o.result.error.isSome, o.result.had_changes)) =
      Except.ok (true, true) := by
  rfl

/-- C2 (amended): for every result produced during a run, a non-null
error implies `had_changes = false`, except for write-failure results,
which carry `had_changes = true` together with the computed (unapplied)
modified lines, and arise only when `dry_run = false`. -/
theorem C2_error_implies_no_changes_amended :
    ∀ (fs : Fs) (cfg : Config) (files : List String) (dry_run : Bool)
      (pr : String × ProcessingResult),
      pr ∈ (process_files_with_results fs cfg files dry_run).file_results →
      pr.2.error.isSome = true →
      pr.2.had_changes = false ∨
        (pr.2.had_changes = true ∧ pr.2.lines_modified ≠ [] ∧ dry_run = false ∧
          ∃ e, pr.2.error = some ("Failed to write file: " ++ e)) := by
  intro fs cfg files dry_run
  induction files generalizing fs with
  | nil =>
    intro pr h
    simp [process_files_with_results] at h
  | cons p ps ih =>
    intro pr hmem herr
    obtain ⟨o, ho⟩ := process_file_isOk fs cfg p dry_run
    simp only [process_files_with_results, ho, List.mem_cons] at hmem
    rcases hmem with h1 | h2
    · subst h1
      exact pf_error_shape ho herr
    · exact ih o.fs pr h2 herr

/-- The binary-file result used to witness the amended C2. -/
def binRes : ProcessingResult := ⟨[], false, some "Binary file detected"⟩

/-- The one-binary-file filesystem used to witness the amended C2. -/
def fsBin : Fs := ⟨[("f", [72, 0, 10])], []⟩

/-- C2 witness: the amended theorem applied to a concrete run over one
binary file. -/
theorem C2_error_implies_no_changes_witness :
    ("f", binRes).2.had_changes = false ∨
      (("f", binRes).2.had_changes = true ∧ ("f", binRes).2.lines_modified ≠ [] ∧
        false = false ∧
        ∃ e, ("f", binRes).2.error = some ("Failed to write file: " ++ e)) :=
  C2_error_implies_no_changes_amended fsBin cfgPlain ["f"] false ("f", binRes)
    (by decide) (by decide)

/-- C8 counterexample: `format_line_numbers [5]` is `" (5)"` — with a
leading space — not `"(5)"` as the claim's examples state. -/
theorem C8_counterexample_leading_space :
    format_line_numbers [5] ≠ "(5)" := by
  decide

/-- C8 (amended): for every list of line numbers, `format_line_numbers`
renders the maximal consecutive runs as `start-end`, isolated numbers
bare, comma-joined inside parentheses preceded by one space, and the
empty list as the empty string; in particular the claim's examples render
as `" (1-3,5,7-9)"`, `" (5)"`, `" (1,3,5)"` and `""`. -/
theorem C8_format_line_numbers_amended :
    (∀ l, format_line_numbers l = renderSpec l) ∧
      format_line_numbers [1, 2, 3, 5, 7, 8, 9] = " (1-3,5,7-9)" ∧
      format_line_numbers [5] = " (5)" ∧
      format_line_numbers [1, 3, 5] = " (1,3,5)" ∧
      format_line_numbers [] = "" :=
  ⟨format_line_numbers_eq_renderSpec, by decide, by decide, by decide, rfl⟩

/-- C10: when the transform reports no modified lines (which covers the
read-failure, binary, and invalid-encoding rejections as well), even a
non-dry run performs no filesystem write. -/
theorem C10_unchanged_files_never_written :
    ∀ (fs : Fs) (cfg : Config) (path : String) (o : FileOutcome),
      process_file fs cfg path false = Except.ok o →
      o.result.lines_modified = [] → o.writes = [] := by
  intro fs cfg path o hok hnil
  rcases hr : fsRead fs path with e | content
  · rw [pf_read_err hr] at hok; cases hok; rfl
  · by_cases hb : is_binary_content cfg content = true
    · rw [pf_binary hr hb] at hok; cases hok; rfl
    · replace hb : is_binary_content cfg content = false := by simpa using hb
      rcases hd : decodeUtf8 content with _ | chars
      · rw [pf_invalid hr hb hd] at hok; cases hok; rfl
      · by_cases hch : (process_content chars).2.1 = []
        · rw [pf_nowrite hr hb hd (Or.inr hch)] at hok; cases hok; rfl
        · rcases hw : fsWrite fs path (encodeUtf8 (process_content chars).1) with e | fs'
          · rw [pf_write_err hr hb hd hch hw] at hok
            cases hok
            exact absurd hnil hch
          · rw [pf_write_ok hr hb hd hch hw] at hok
            cases hok
            exact absurd hnil hch

/-- C10 witness: a clean file on disk, processed without `dry_run`,
results in no write. -/
theorem C10_unchanged_files_never_written_witness :
    ({ result := ⟨[], false, none⟩, writes := [],
       fs := ⟨[("f", [97, 10])], []⟩ } : FileOutcome).writes = [] :=
  C10_unchanged_files_never_written ⟨[("f", [97, 10])], []⟩ cfgPlain "f" _
    rfl rfl

/-! ### Aggregation lemmas (`ParallelEngine::aggregate_results`) -/

theorem aggregate_processed (rs : List ProcessingResult) :
    (aggregate_results rs).files_processed = rs.length := by
  induction rs with
  | nil => rfl
  | cons r rs ih =>
    simp only [aggregate_results]
    by_cases he : r.error.isSome = true
    · simp [he, ih]
    · by_cases hc : r.had_changes = true
      · simp [he, hc, ih]
      · simp [he, hc, ih]

theorem aggregate_errors (rs : List ProcessingResult) :
    (aggregate_results rs).files_with_errors = rs.countP (fun r => r.error.isSome) := by
  induction rs with
  | nil => rfl
  | cons r rs ih =>
    simp only [aggregate_results, List.countP_cons]
    by_cases he : r.error.isSome = true
    · simp [he, ih]
    · by_cases hc : r.had_changes = true
      · simp [he, hc, ih]
      · simp [he, hc, ih]

theorem aggregate_modified (rs : List ProcessingResult) :
    (aggregate_results rs).files_modified =
      rs.countP (fun r => !r.error.isSome && r.had_changes) := by
  induction rs with
  | nil => rfl
  | cons r rs ih =>
    simp only [aggregate_results, List.countP_cons]
    by_cases he : r.error.isSome = true
    · simp [he, ih]
    · by_cases hc : r.had_changes = true
      · simp [he, hc, ih]
      · simp [he, hc, ih]

theorem aggregate_partition (rs : List ProcessingResult) :
    (aggregate_results rs).files_with_errors + (aggregate_results rs).files_modified +
      rs.countP (fun r => !r.error.isSome && !r.had_changes) = rs.length := by
  induction rs with
  | nil => rfl
  | cons r rs ih =>
    simp only [aggregate_results, List.countP_cons, List.length_cons]
    by_cases he : r.error.isSome = true
    · simp only [he, if_true]
      simp [he] at ih ⊢
      omega
    · by_cases hc : r.had_changes = true
      · simp only [he, hc]
        simp [he, hc] at ih ⊢
        omega
      · simp only [he, hc]
        simp [he, hc] at ih ⊢
        omega

theorem run_results_length (fs : Fs) (cfg : Config) (files : List String)
    (dry_run : Bool) :
    (process_files_with_results fs cfg files dry_run).file_results.length =
      files.length := by
  induction files generalizing fs with
  | nil => rfl
  | cons p ps ih =>
    obtain ⟨o, ho⟩ := process_file_isOk fs cfg p dry_run
    simp only [process_files_with_results, ho, List.length_cons]
    rw [ih]

/-- C3: the aggregated summary counts every input path, counts errored
results and changed-error-free results, and the three classes error /
modified / unchanged-no-error partition the run exactly. -/
theorem C3_summary_partition_law :
    ∀ (fs : Fs) (cfg : Config) (files : List String) (dry_run : Bool),
      (aggregate_results
          ((process_files_with_results fs cfg files dry_run).file_results.map
            Prod.snd)).files_processed = files.length ∧
      (aggregate_results
          ((process_files_with_results fs cfg files dry_run).file_results.map
            Prod.snd)).files_with_errors =
        ((process_files_with_results fs cfg files dry_run).file_results.map
          Prod.snd).countP (fun r => r.error.isSome) ∧
      (aggregate_results
          ((process_files_with_results fs cfg files dry_run).file_results.map
            Prod.snd)).files_modified =
        ((process_files_with_results fs cfg files dry_run).file_results.map
          Prod.snd).countP (fun r => !r.error.isSome && r.had_changes) ∧
      (aggregate_results
          ((process_files_with_results fs cfg files dry_run).file_results.map
            Prod.snd)).files_with_errors +
        (aggregate_results
          ((process_files_with_results fs cfg files dry_run).file_results.map
            Prod.snd)).files_modified +
        ((process_files_with_results fs cfg files dry_run).file_results.map
          Prod.snd).countP (fun r => !r.error.isSome && !r.had_changes) =
        files.length := by
  intro fs cfg files dry_run
  refine ⟨?_, aggregate_errors _, aggregate_modified _, ?_⟩
  · rw [aggregate_processed, List.length_map, run_results_length]
  · rw [aggregate_partition, List.length_map, run_results_length]

/-! ### C7: structured error results -/

theorem pf_result_read_err {fs : Fs} {cfg : Config} {path : String}
    {dry_run : Bool} {o : FileOutcome}
    (hok : process_file fs cfg path dry_run = Except.ok o)
    {e : String} (hr : fsRead fs path = Except.error e) :
    o.result = ⟨[], false, some ("Failed to read file: " ++ e)⟩ := by
  rw [pf_read_err hr] at hok
  cases hok
  rfl

theorem pf_result_binary {fs : Fs} {cfg : Config} {path : String}
    {dry_run : Bool} {o : FileOutcome}
    (hok : process_file fs cfg path dry_run = Except.ok o)
    {content : List Nat} (hr : fsRead fs path = Except.ok content)
    (hb : is_binary_content cfg content = true) :
    o.result = ⟨[], false, some "Binary file detected"⟩ := by
  rw [pf_binary hr hb] at hok
  cases hok
  rfl

theorem pf_result_invalid {fs : Fs} {cfg : Config} {path : String}
    {dry_run : Bool} {o : FileOutcome}
    (hok : process_file fs cfg path dry_run = Except.ok o)
    {content : List Nat} (hr : fsRead fs path = Except.ok content)
    (hb : is_binary_content cfg content = false)
    (hd : decodeUtf8 content = none) :
    o.result = ⟨[], false, some "Invalid UTF-8 encoding"⟩ := by
  rw [pf_invalid hr hb hd] at hok
  cases hok
  rfl

theorem pf_result_write_err {fs : Fs} {cfg : Config} {path : String}
    {o : FileOutcome}
    (hok : process_file fs cfg path false = Except.ok o)
    {content : List Nat} {chars : List Char} {e : String}
    (hr : fsRead fs path = Except.ok content)
    (hb : is_binary_content cfg content = false)
    (hd : decodeUtf8 content = some chars)
    (hch : (process_content chars).2.1 ≠ [])
    (hw : fsWrite fs path (encodeUtf8 (process_content chars).1) = Except.error e) :
    o.result =
      ⟨(process_content chars).2.1, true, some ("Failed to write file: " ++ e)⟩ := by
  rw [pf_write_err hr hb hd hch hw] at hok
  cases hok
  rfl

/-- C7: `process_file` always hands a structured `ProcessingResult` back
to the orchestrator (it never returns the `Except.error` case), and each
failure mode — read failure, binary detection, invalid encoding, write
failure — yields a result carrying the corresponding error string. -/
theorem C7_never_propagates_fatal_errors :
    ∀ (fs : Fs) (cfg : Config) (path : String) (dry_run : Bool),
      ∃ o, process_file fs cfg path dry_run = Except.ok o ∧
        (∀ e, fsRead fs path = Except.error e →
          o.result = ⟨[], false, some ("Failed to read file: " ++ e)⟩) ∧
        (∀ content, fsRead fs path = Except.ok content →
          is_binary_content cfg content = true →
          o.result = ⟨[], false, some "Binary file detected"⟩) ∧
        (∀ content, fsRead fs path = Except.ok content →
          is_binary_content cfg content = false → decodeUtf8 content = none →
          o.result = ⟨[], false, some "Invalid UTF-8 encoding"⟩) ∧
        (∀ content chars e, fsRead fs path = Except.ok content →
          is_binary_content cfg content = false → decodeUtf8 content = some chars →
          dry_run = false → (process_content chars).2.1 ≠ [] →
          fsWrite fs path (encodeUtf8 (process_content chars).1) = Except.error e →
          o.result =
            ⟨(process_content chars).2.1, true,
              some ("Failed to write file: " ++ e)⟩) := by
  intro fs cfg path dry_run
  obtain ⟨o, ho⟩ := process_file_isOk fs cfg path dry_run
  refine ⟨o, ho, ?_, ?_, ?_, ?_⟩
  · intro e hr
    exact pf_result_read_err ho hr
  · intro content hr hb
    exact pf_result_binary ho hr hb
  · intro content hr hb hd
    exact pf_result_invalid ho hr hb hd
  · intro content chars e hr hb hd hdry hch hw
    subst hdry
    exact pf_result_write_err ho hr hb hd hch hw

/-- C7 witness: the theorem applied to a concrete binary file. -/
theorem C7_never_propagates_fatal_errors_witness :
    ∃ o, process_file fsBin cfgPlain "f" false = Except.ok o ∧
      o.result = ⟨[], false, some "Binary file detected"⟩ := by
  obtain ⟨o, ho, _, hbin, _, _⟩ :=
    C7_never_propagates_fatal_errors fsBin cfgPlain "f" false
  exact ⟨o, ho, hbin [72, 0, 10] rfl rfl⟩

/-! ### C5: dry runs never write -/

theorem pf_dry_spec (fs : Fs) (cfg : Config) (p : String) :
    ∃ o, process_file fs cfg p true = Except.ok o ∧ o.writes = [] ∧ o.fs = fs ∧
      (!o.result.error.isSome && o.result.had_changes) = wouldChange fs cfg p := by
  rcases hr : fsRead fs p with e | content
  · exact ⟨_, pf_read_err hr, rfl, rfl, by simp [wouldChange, hr]⟩
  · by_cases hb : is_binary_content cfg content = true
    · exact ⟨_, pf_binary hr hb, rfl, rfl, by simp [wouldChange, hr, hb]⟩
    · replace hb : is_binary_content cfg content = false := by simpa using hb
      rcases hd : decodeUtf8 content with _ | chars
      · exact ⟨_, pf_invalid hr hb hd, rfl, rfl, by simp [wouldChange, hr, hb, hd]⟩
      · exact ⟨_, pf_nowrite hr hb hd (Or.inl rfl), rfl, rfl,
          by simp [wouldChange, hr, hb, hd]⟩

/-- C5: a dry run performs no write invocation at all, leaves the
filesystem exactly as it was, and the summary's modified-count still
equals the number of input paths whose content the transform would
change. -/
theorem C5_dry_run_reports_without_writing :
    ∀ (fs : Fs) (cfg : Config) (files : List String),
      (process_files_with_results fs cfg files true).writes = [] ∧
      (process_files_with_results fs cfg files true).fs = fs ∧
      (aggregate_results
          ((process_files_with_results fs cfg files true).file_results.map
            Prod.snd)).files_modified =
        files.countP (fun p => wouldChange fs cfg p) := by
  intro fs cfg files
  induction files with
  | nil => exact ⟨rfl, rfl, rfl⟩
  | cons p ps ih =>
    obtain ⟨o, ho, hw, hfs, hwc⟩ := pf_dry_spec fs cfg p
    simp only [process_files_with_results, ho, hfs]
    obtain ⟨ih1, ih2, ih3⟩ := ih
    refine ⟨?_, ih2, ?_⟩
    · rw [hw, ih1]
      rfl
    · rw [List.map_cons, aggregate_modified, List.countP_cons, List.countP_cons,
        ← aggregate_modified, ih3, hwc]

/-! ### C9: exclusion completeness of the walker -/

/-- C9: a file whose path (or an ancestor, including the bare-name rule
for `name/**` patterns) matches an `exclude_paths` pattern, or whose base
name matches an `exclude_files` or `exclude_binary_extensions` pattern,
or whose size exceeds `max_file_size`, never appears in the walker's
output. -/
theorem C9_excluded_files_never_collected :
    ∀ (cfg : Config) (meta : List (List String × Nat)) (entries : List WalkEntry)
      (p : List String),
      (is_excluded_path cfg p = true ∨ is_excluded_file cfg p = true ∨
        has_binary_extension cfg p = true ∨
        (∃ len, meta.lookup p = some len ∧ len > cfg.processing.max_file_size)) →
      p ∉ collect_files cfg meta entries := by
  intro cfg meta entries p hex hmem
  simp only [collect_files, List.mem_map, List.mem_filter,
    Bool.and_eq_true] at hmem
  obtain ⟨e, ⟨_, ⟨_, _⟩, hsp⟩, hpe⟩ := hmem
  rw [hpe] at hsp
  unfold should_process_file at hsp
  rcases hex with h | h | h | ⟨len, hlk, hgt⟩
  · rw [h] at hsp
    simp at hsp
  · rw [h] at hsp
    simp at hsp
  · rw [h] at hsp
    simp at hsp
  · rw [hlk] at hsp
    simp [hgt] at hsp

/-- A configuration excluding `.git` trees, for the C9 witness. -/
def cfgGit : Config := ⟨[], [".git/**"], [], [], ⟨true, 8192⟩, ⟨104857600⟩⟩

/-- C9 witness: a file under a `.git` directory is never collected (the
`.git/**` pattern excludes it through the bare-name ancestor rule). -/
theorem C9_excluded_files_never_collected_witness :
    (["proj", ".git", "config"] : List String) ∉
      collect_files cfgGit [(["proj", ".git", "config"], 10)]
        [⟨["proj", ".git", "config"], false, false⟩] :=
  C9_excluded_files_never_collected cfgGit
    [(["proj", ".git", "config"], 10)]
    [⟨["proj", ".git", "config"], false, false⟩]
    ["proj", ".git", "config"]
    (Or.inl (by decide))

/-! ### C4: correctness of the modified-line numbers -/

theorem processLoop_snd (l : List Char) (ls : List (List Char)) (n : Nat) :
    (processLoop (l :: ls) n).2.1 =
      if lineChanged l then (n + 1) :: (processLoop ls (n + 1)).2.1
      else (processLoop ls (n + 1)).2.1 := by
  simp only [processLoop]
  by_cases hc : lineChanged l
  · simp [hc]
  · simp [hc]

theorem processLoop_lb (ls : List (List Char)) : ∀ n i,
    i ∈ (processLoop ls n).2.1 → n < i := by
  induction ls with
  | nil => intro n i h; simp [processLoop] at h
  | cons l ls ih =>
    intro n i h
    rw [processLoop_snd] at h
    by_cases hc : lineChanged l = true
    · rw [if_pos hc] at h
      rcases List.mem_cons.mp h with rfl | h
      · omega
      · have := ih (n + 1) i h
        omega
    · rw [if_neg hc] at h
      have := ih (n + 1) i h
      omega

theorem processLoop_chain (ls : List (List Char)) : ∀ n,
    List.Chain' (fun a b => a < b) (processLoop ls n).2.1 := by
  induction ls with
  | nil => intro n; simp [processLoop]
  | cons l ls ih =>
    intro n
    rw [processLoop_snd]
    by_cases hc : lineChanged l = true
    · rw [if_pos hc, List.chain'_cons']
      refine ⟨fun b hb => ?_, ih (n + 1)⟩
      exact processLoop_lb ls (n + 1) b (List.mem_of_mem_head? hb)
    · rw [if_neg hc]
      exact ih (n + 1)

theorem processLoop_mem (ls : List (List Char)) : ∀ n i,
    i ∈ (processLoop ls n).2.1 ↔
      ∃ j, ∃ hj : j < ls.length, i = n + j + 1 ∧
        lineChanged (ls.get ⟨j, hj⟩) = true := by
  induction ls with
  | nil => intro n i; simp [processLoop]
  | cons l ls ih =>
    intro n i
    rw [processLoop_snd]
    by_cases hc : lineChanged l = true
    · rw [if_pos hc]
      rw [List.mem_cons, ih (n + 1) i]
      constructor
      · rintro (rfl | ⟨j, hj, rfl, hch⟩)
        · exact ⟨0, Nat.succ_pos _, by omega, hc⟩
        · exact ⟨j + 1, Nat.succ_lt_succ hj, by omega, hch⟩
      · rintro ⟨j, hj, rfl, hch⟩
        cases j with
        | zero => left; omega
        | succ j =>
          right
          exact ⟨j, Nat.lt_of_succ_lt_succ hj, by omega, hch⟩
    · rw [if_neg hc]
      rw [ih (n + 1) i]
      constructor
      · rintro ⟨j, hj, rfl, hch⟩
        exact ⟨j + 1, Nat.succ_lt_succ hj, by omega, hch⟩
      · rintro ⟨j, hj, rfl, hch⟩
        cases j with
        | zero => exact absurd hch hc
        | succ j =>
          exact ⟨j, Nat.lt_of_succ_lt_succ hj, by omega, hch⟩

/-- C4: a 1-based line number appears in the transform's modified-line
list exactly when that line's trailing-whitespace-trimmed byte length is
strictly below its original byte length; the list is strictly ascending;
and it is empty exactly when no line changed. -/
theorem C4_modified_line_numbers :
    ∀ (content : List Char),
      (∀ i, i ∈ (process_content content).2.1 ↔
        ∃ j, ∃ hj : j < (rustLines content).length,
          i = j + 1 ∧
          byteLen (trimEnd ((rustLines content).get ⟨j, hj⟩)) <
            byteLen ((rustLines content).get ⟨j, hj⟩)) ∧
      List.Chain' (fun a b => a < b) (process_content content).2.1 ∧
      ((process_content content).2.1 = [] ↔
        ∀ l ∈ rustLines content, ¬(byteLen (trimEnd l) < byteLen l)) := by
  intro content
  have hpc : (process_content content).2.1 =
      (processLoop (rustLines content) 0).2.1 := rfl
  refine ⟨?_, ?_, ?_⟩
  · intro i
    rw [hpc, processLoop_mem]
    constructor
    · rintro ⟨j, hj, rfl, hch⟩
      exact ⟨j, hj, by omega, by simpa [lineChanged] using hch⟩
    · rintro ⟨j, hj, rfl, hlt⟩
      exact ⟨j, hj, by omega, by simpa [lineChanged] using hlt⟩
  · rw [hpc]
    exact processLoop_chain _ 0
  · rw [hpc]
    constructor
    · intro hnil l hl hlt
      obtain ⟨⟨j, hj⟩, rfl⟩ := List.mem_iff_get.mp hl
      have hmem : (0 + j + 1) ∈ (processLoop (rustLines content) 0).2.1 :=
        (processLoop_mem _ 0 _).mpr ⟨j, hj, rfl, by simpa [lineChanged] using hlt⟩
      rw [hnil] at hmem
      simp at hmem
    · intro hall
      by_contra hne
      obtain ⟨i, hi⟩ := List.exists_mem_of_ne_nil _ hne
      obtain ⟨j, hj, rfl, hch⟩ := (processLoop_mem _ 0 i).mp hi
      exact hall _ (List.get_mem _ _ _) (by simpa [lineChanged] using hch)

/-! ### C6: idempotence of the transform -/

theorem dropWhile_idem (p : α → Bool) (x : List α) :
    (x.dropWhile p).dropWhile p = x.dropWhile p := by
  induction x with
  | nil => rfl
  | cons a x ih =>
    by_cases h : p a = true
    · simp [List.dropWhile_cons, h, ih]
    · simp [List.dropWhile_cons, h]

theorem trimEnd_trimEnd (l : List Char) : trimEnd (trimEnd l) = trimEnd l := by
  unfold trimEnd
  rw [List.reverse_reverse, dropWhile_idem]

theorem dropWhile_head_not (p : α → Bool) (x : List α) {c : α} {cs : List α}
    (h : x.dropWhile p = c :: cs) : p c = false := by
  induction x with
  | nil => simp [List.dropWhile] at h
  | cons a x ih =>
    by_cases hp : p a = true
    · rw [List.dropWhile_cons, if_pos hp] at h
      exact ih h
    · rw [List.dropWhile_cons, if_neg hp] at h
      cases h
      simpa using hp

theorem trimEnd_getLast_not_ws (l : List Char) {c : Char}
    (h : (trimEnd l).getLast? = some c) : isRustWhitespace c = false := by
  unfold trimEnd at h
  rw [List.getLast?_reverse] at h
  cases hd : l.reverse.dropWhile isRustWhitespace with
  | nil => rw [hd] at h; simp at h
  | cons b bs =>
    rw [hd] at h
    simp only [List.head?_cons, Option.some.injEq] at h
    subst h
    exact dropWhile_head_not isRustWhitespace l.reverse hd

theorem stripCr_trimEnd (l : List Char) : stripCr (trimEnd l) = trimEnd l := by
  unfold stripCr
  cases hg : (trimEnd l).getLast? with
  | none => simp
  | some c =>
    have hws := trimEnd_getLast_not_ws l hg
    have hc : (c == '\r') = false := by
      cases hcc : c == '\r'
      · rfl
      · exfalso
        have : c = '\r' := by simpa using hcc
        subst this
        exact absurd hws (by decide)
    simp [hc]

theorem trimEnd_sublist (l : List Char) : List.Sublist (trimEnd l) l := by
  have h := (List.dropWhile_sublist (l := l.reverse) isRustWhitespace).reverse
  simpa [trimEnd] using h

theorem mem_stripCr {c : Char} {l : List Char} (h : c ∈ stripCr l) : c ∈ l := by
  unfold stripCr at h
  by_cases hb : (l.getLast? == some '\r') = true
  · rw [if_pos hb] at h
    exact (List.dropLast_sublist l).subset h
  · rw [if_neg hb] at h
    exact h

theorem linesGo_no_newline (t : List Char) : ∀ acc : List Char, '\n' ∉ acc →
    ∀ l ∈ linesGo t acc, '\n' ∉ l := by
  induction t with
  | nil =>
    intro acc hacc l hl
    simp only [linesGo] at hl
    by_cases ha : acc.isEmpty = true
    · rw [if_pos ha] at hl
      simp at hl
    · rw [if_neg ha] at hl
      simp only [List.mem_singleton] at hl
      subst hl
      intro hmem
      exact hacc (by simpa using hmem)
  | cons c t ih =>
    intro acc hacc l hl
    simp only [linesGo] at hl
    by_cases hc : (c == '\n') = true
    · rw [if_pos hc] at hl
      rcases List.mem_cons.mp hl with rfl | hl
      · intro hmem
        exact hacc (by simpa using mem_stripCr hmem)
      · exact ih [] (by simp) l hl
    · rw [if_neg hc] at hl
      refine ih (c :: acc) ?_ l hl
      intro hmem
      rcases List.mem_cons.mp hmem with heq | hmem
      · rw [← heq] at hc
        simp at hc
      · exact hacc hmem

theorem rustLines_no_newline (t : List Char) : ∀ l ∈ rustLines t, '\n' ∉ l :=
  linesGo_no_newline t [] (by simp)

theorem linesGo_eq_nil {t acc : List Char} (h : linesGo t acc = []) :
    t = [] ∧ acc = [] := by
  induction t generalizing acc with
  | nil =>
    simp only [linesGo] at h
    by_cases ha : acc.isEmpty = true
    · exact ⟨rfl, by simpa [List.isEmpty_iff] using ha⟩
    · rw [if_neg ha] at h
      simp at h
  | cons c t ih =>
    simp only [linesGo] at h
    by_cases hc : (c == '\n') = true
    · rw [if_pos hc] at h
      simp at h
    · rw [if_neg hc] at h
      have := ih h
      simp at this

theorem linesGo_no_nl_eq (l : List Char) : ∀ acc : List Char,
    (∀ c ∈ l, c ≠ '\n') →
    linesGo l acc = if acc = [] ∧ l = [] then [] else [acc.reverse ++ l] := by
  induction l with
  | nil =>
    intro acc h
    simp only [linesGo]
    by_cases ha : acc = []
    · simp [ha]
    · simp [ha, List.isEmpty_iff]
  | cons c l ih =>
    intro acc h
    have hc : (c == '\n') = false := by
      have := h c (List.mem_cons_self _ _)
      simpa using this
    simp only [linesGo, hc, Bool.false_eq_true, if_false]
    rw [ih (c :: acc) (fun x hx => h x (List.mem_cons_of_mem _ hx))]
    simp

theorem linesGo_split (l : List Char) : ∀ (acc rest : List Char),
    (∀ c ∈ l, c ≠ '\n') →
    linesGo (l ++ '\n' :: rest) acc =
      stripCr (acc.reverse ++ l) :: linesGo rest [] := by
  induction l with
  | nil =>
    intro acc rest h
    simp [linesGo]
  | cons c l ih =>
    intro acc rest h
    have hc : (c == '\n') = false := by
      have := h c (List.mem_cons_self _ _)
      simpa using this
    simp only [List.cons_append, List.append_eq, linesGo, hc, Bool.false_eq_true,
      if_false]
    rw [ih (c :: acc) rest (fun x hx => h x (List.mem_cons_of_mem _ hx))]
    simp

theorem rustLines_joinNl_append (ts : List (List Char)) (hne : ts ≠ [])
    (hnl : ∀ l ∈ ts, ∀ c ∈ l, c ≠ '\n')
    (hcr : ∀ l ∈ ts, stripCr l = l) :
    rustLines (joinNl ts ++ ['\n']) = ts := by
  induction ts with
  | nil => cases hne rfl
  | cons l ts ih =>
    cases ts with
    | nil =>
      have h := linesGo_split l [] [] (hnl l (List.mem_cons_self _ _))
      simp only [joinNl, rustLines]
      rw [show l ++ ['\n'] = l ++ '\n' :: [] from rfl, h]
      simp [hcr l (List.mem_cons_self _ _), linesGo]
    | cons l2 ts2 =>
      simp only [joinNl, rustLines]
      rw [show (l ++ '\n' :: joinNl (l2 :: ts2)) ++ ['\n'] =
        l ++ '\n' :: (joinNl (l2 :: ts2) ++ ['\n']) by simp]
      rw [linesGo_split l [] _ (hnl l (List.mem_cons_self _ _))]
      have ihr := ih (by simp)
        (fun x hx => hnl x (List.mem_cons_of_mem _ hx))
        (fun x hx => hcr x (List.mem_cons_of_mem _ hx))
      simp only [rustLines] at ihr
      rw [ihr]
      simp [hcr l (List.mem_cons_self _ _)]

theorem rustLines_joinNl (ts : List (List Char)) (hne : ts ≠ [])
    (hnl : ∀ l ∈ ts, ∀ c ∈ l, c ≠ '\n')
    (hcr : ∀ l ∈ ts, stripCr l = l)
    (hlast : ts.getLast? ≠ some []) :
    rustLines (joinNl ts) = ts := by
  induction ts with
  | nil => cases hne rfl
  | cons l ts ih =>
    cases ts with
    | nil =>
      have hl : l ≠ [] := by
        intro h
        subst h
        simp at hlast
      simp only [joinNl, rustLines]
      rw [linesGo_no_nl_eq l [] (hnl l (List.mem_cons_self _ _))]
      simp [hl]
    | cons l2 ts2 =>
      simp only [joinNl, rustLines]
      rw [linesGo_split l [] _ (hnl l (List.mem_cons_self _ _))]
      have ihr := ih (by simp)
        (fun x hx => hnl x (List.mem_cons_of_mem _ hx))
        (fun x hx => hcr x (List.mem_cons_of_mem _ hx))
        (by simpa using hlast)
      simp only [rustLines] at ihr
      rw [ihr]
      simp [hcr l (List.mem_cons_self _ _)]

theorem joinNl_append_nil (xs : List (List Char)) (hne : xs ≠ []) :
    joinNl (xs ++ [[]]) = joinNl xs ++ ['\n'] := by
  induction xs with
  | nil => cases hne rfl
  | cons x xs ih =>
    cases xs with
    | nil => rfl
    | cons x2 xs2 =>
      have ihx := ih (by simp)
      simp only [List.cons_append, List.append_eq, joinNl] at ihx ⊢
      rw [ihx]
      simp

theorem joinNl_getLast? (ts : List (List Char)) {lne : List Char}
    (hlast : ts.getLast? = some lne) (hlne : lne ≠ []) :
    (joinNl ts).getLast? = lne.getLast? := by
  induction ts with
  | nil => simp at hlast
  | cons l ts ih =>
    cases ts with
    | nil =>
      simp only [List.getLast?_singleton, Option.some.injEq] at hlast
      subst hlast
      rfl
    | cons l2 ts2 =>
      have hlast2 : (l2 :: ts2).getLast? = some lne := by
        simpa using hlast
      have ihr := ih hlast2
      have hJ : joinNl (l2 :: ts2) ≠ [] := by
        intro hnil
        rw [hnil] at ihr
        simp only [List.getLast?_nil] at ihr
        have := List.getLast?_eq_none_iff.mp ihr.symm
        exact hlne this
      simp only [joinNl]
      rw [List.getLast?_append_cons, ← ihr]
      cases hJc : joinNl (l2 :: ts2) with
      | nil => cases hJ hJc
      | cons a as => simp

theorem processLoop_fst (ls : List (List Char)) : ∀ n,
    (processLoop ls n).1 = ls.map trimEnd := by
  induction ls with
  | nil => intro n; rfl
  | cons l ls ih =>
    intro n
    simp only [processLoop]
    by_cases hc : lineChanged l = true
    · simp [hc, ih]
    · simp [hc, ih]

theorem processLoop_nochange (ls : List (List Char))
    (hfix : ∀ l ∈ ls, trimEnd l = l) : ∀ n, processLoop ls n = (ls, [], 0) := by
  induction ls with
  | nil => intro n; rfl
  | cons l ls ih =>
    intro n
    have hlc : lineChanged l = false := by
      simp [lineChanged, hfix l (List.mem_cons_self _ _)]
    simp only [processLoop, hlc, Bool.false_eq_true, if_false]
    rw [ih (fun x hx => hfix x (List.mem_cons_of_mem _ hx)) (n + 1),
      hfix l (List.mem_cons_self _ _)]

theorem rustLines_eq_nil {t : List Char} (h : rustLines t = []) : t = [] :=
  (linesGo_eq_nil h).1

theorem process_content_fixed_append (ts : List (List Char)) (hne : ts ≠ [])
    (hfix : ∀ l ∈ ts, trimEnd l = l) (hnl : ∀ l ∈ ts, ∀ c ∈ l, c ≠ '\n') :
    process_content (joinNl ts ++ ['\n']) = (joinNl ts ++ ['\n'], [], 0) := by
  have hcr : ∀ l ∈ ts, stripCr l = l := by
    intro l hl
    rw [← hfix l hl]
    exact stripCr_trimEnd l
  have hrl : rustLines (joinNl ts ++ ['\n']) = ts :=
    rustLines_joinNl_append ts hne hnl hcr
  have hloop := processLoop_nochange ts hfix 0
  have hlast : ((joinNl ts ++ ['\n']).getLast? == some '\n') = true := by
    rw [List.getLast?_concat]
    rfl
  simp only [process_content, hrl, hloop, hlast]
  simp

theorem process_content_fixed (ts : List (List Char))
    (hfix : ∀ l ∈ ts, trimEnd l = l) (hnl : ∀ l ∈ ts, ∀ c ∈ l, c ≠ '\n') :
    process_content (joinNl ts) = (joinNl ts, [], 0) := by
  have hcr : ∀ l ∈ ts, stripCr l = l := by
    intro l hl
    rw [← hfix l hl]
    exact stripCr_trimEnd l
  by_cases hne : ts = []
  · subst hne
    rfl
  · have hlast? : ts.getLast? = some (ts.getLast hne) :=
      List.getLast?_eq_getLast ts hne
    by_cases hl0 : ts.getLast hne = []
    · have hsplit : ts.dropLast ++ [[]] = ts := by
        rw [← hl0]
        exact List.dropLast_append_getLast hne
      by_cases hdl : ts.dropLast = []
      · have hts : ts = [[]] := by
          rw [← hsplit, hdl]
          rfl
        rw [hts]
        rfl
      · rw [← hsplit, joinNl_append_nil _ hdl]
        refine process_content_fixed_append ts.dropLast hdl ?_ ?_
        · intro l hl
          exact hfix l ((List.dropLast_sublist ts).subset hl)
        · intro l hl
          exact hnl l ((List.dropLast_sublist ts).subset hl)
    · have hrl := rustLines_joinNl ts hne hnl hcr (by rw [hlast?]; simpa using hl0)
      have hloop := processLoop_nochange ts hfix 0
      have hend : ((joinNl ts).getLast? == some '\n') = false := by
        rw [joinNl_getLast? ts hlast? hl0]
        cases hgl : (ts.getLast hne).getLast? with
        | none => rfl
        | some c =>
          have hfixlast : trimEnd (ts.getLast hne) = ts.getLast hne :=
            hfix _ (List.getLast_mem hne)
          have hws : isRustWhitespace c = false := by
            apply trimEnd_getLast_not_ws (ts.getLast hne)
            rw [hfixlast]
            exact hgl
          cases hcc : c == '\n' with
          | false => simpa using hcc
          | true =>
            exfalso
            have : c = '\n' := by simpa using hcc
            subst this
            exact absurd hws (by decide)
      simp only [process_content, hrl, hloop, hend]
      simp

/-- C6: the transform is idempotent — applying it to its own cleaned
output returns that output unchanged, with an empty modified-line list
(and zero bytes saved). -/
theorem C6_transform_idempotent :
    ∀ t : List Char,
      process_content ((process_content t).1) = ((process_content t).1, [], 0) := by
  intro t
  have hfix : ∀ l ∈ (rustLines t).map trimEnd, trimEnd l = l := by
    intro l hl
    obtain ⟨x, _, rfl⟩ := List.mem_map.mp hl
    exact trimEnd_trimEnd x
  have hnl : ∀ l ∈ (rustLines t).map trimEnd, ∀ c ∈ l, c ≠ '\n' := by
    intro l hl c hc
    obtain ⟨x, hx, rfl⟩ := List.mem_map.mp hl
    intro hceq
    subst hceq
    exact rustLines_no_newline t x hx ((trimEnd_sublist x).subset hc)
  have h1 : (process_content t).1 =
      if (t.getLast? == some '\n') = true
      then joinNl ((rustLines t).map trimEnd) ++ ['\n']
      else joinNl ((rustLines t).map trimEnd) := by
    simp only [process_content, processLoop_fst]
  by_cases hend : (t.getLast? == some '\n') = true
  · rw [h1, if_pos hend]
    have hne : (rustLines t).map trimEnd ≠ [] := by
      intro hnil
      have h0 : rustLines t = [] := by simpa using hnil
      have := rustLines_eq_nil h0
      subst this
      simp at hend
    exact process_content_fixed_append _ hne hfix hnl
  · rw [h1, if_neg hend]
    exact process_content_fixed _ hfix hnl
